import Mathlib

/-
Verification of the chunking / orchestration / assembly pipeline of
src/RVC/auto_tts.py against its design description.

The pure text splitter `split_into_chunks` is embedded character-exactly
(Python strings become `List Char`, Python `int` becomes `Int`, a raised
exception becomes an `Except` error).  The browser-facing stages are
embedded over explicit observation sequences: one list entry per poll
cycle of the corresponding Python polling loop.
-/

abbrev PyStr := List Char

instance {ε α : Type} [DecidableEq ε] [DecidableEq α] : DecidableEq (Except ε α) := fun x y =>
  match x, y with
  | .ok a, .ok b =>
    if h : a = b then isTrue (congrArg Except.ok h)
    else isFalse (fun he => h (Except.ok.inj he))
  | .error a, .error b =>
    if h : a = b then isTrue (congrArg Except.error h)
    else isFalse (fun he => h (Except.error.inj he))
  | .ok _, .error _ => isFalse (fun he => Except.noConfusion he)
  | .error _, .ok _ => isFalse (fun he => Except.noConfusion he)

/-- ASCII whitespace, the characters matched by the regex class backslash-s
and stripped by str.strip() on ASCII text: space, tab, line feed, carriage
return, vertical tab, form feed. -/
def pySpace (c : Char) : Bool :=
  c == ' ' || c == '\t' || c == '\n' || c == '\r' || c == Char.ofNat 11 || c == Char.ofNat 12

/-- The non-whitespace characters of a string, in order.  Two strings are
whitespace-insensitively equal exactly when `removeWS` sends them to the
same list. -/
def removeWS (s : PyStr) : PyStr := s.filter (fun c => !pySpace c)

/-- Python str.strip(): remove leading and trailing whitespace. -/
def pyStrip (s : PyStr) : PyStr :=
  ((s.dropWhile pySpace).reverse.dropWhile pySpace).reverse

/-- Sentence-terminating punctuation of the splitter regex class [.!?]. -/
def isSentEnd (c : Char) : Bool := c == '.' || c == '!' || c == '?'

/-- Whether the accumulated (reversed) sentence ends in sentence punctuation,
i.e. whether the previously read character is in [.!?]. -/
def headIsSentEnd : PyStr → Bool
  | [] => false
  | c :: _ => isSentEnd c

/-- State machine for re.split of the pattern: lookbehind [.!?] then one or
more whitespace characters.  `fin` holds completed segments, `acc` the
current segment reversed, `inSplit` is true while consuming the whitespace
run of a match (during which `acc` is empty). -/
def splitSentGo (fin : List PyStr) (acc : PyStr) (inSplit : Bool) : PyStr → List PyStr
  | [] => fin ++ [acc.reverse]
  | c :: rest =>
    if inSplit then
      if pySpace c then splitSentGo fin [] true rest
      else splitSentGo fin [c] false rest
    else if pySpace c && headIsSentEnd acc then
      splitSentGo (fin ++ [acc.reverse]) [] true rest
    else
      splitSentGo fin (c :: acc) false rest

/-- sentences = re.split(pattern, text) of split_into_chunks. -/
def splitSentences (text : PyStr) : List PyStr := splitSentGo [] [] false text

/-- The two exceptions split_into_chunks can raise: ValueError from
range(0, n, 0) and IndexError from indexing an empty slice list. -/
inductive PyErr where
  | valueError
  | indexError
deriving DecidableEq

/-- The slice list [sent[i : i + chunk_size] for i in range(0, len(sent), chunk_size)],
including the ValueError of a zero range step and the empty range of a
negative step. -/
def pyParts (sent : PyStr) (cs : Int) : Except PyErr (List PyStr) :=
  if cs = 0 then .error .valueError
  else if cs < 0 then .ok []
  else
    .ok ((List.range ((sent.length + cs.toNat - 1) / cs.toNat)).map
      (fun i => (sent.drop (i * cs.toNat)).take cs.toNat))

/-- Loop state of split_into_chunks: the completed chunks and the
accumulating current chunk. -/
structure SplitSt where
  chunks : List PyStr
  cur : PyStr
deriving DecidableEq

/-- One iteration of the sentence loop of split_into_chunks. -/
def splitStep (cs : Int) (st : SplitSt) (sentRaw : PyStr) : Except PyErr SplitSt :=
  let sent := pyStrip sentRaw
  if sent = [] then .ok st
  else if (st.cur.length + sent.length + 1 : Int) > cs then
    if st.cur = [] then
      match pyParts sent cs with
      | .error e => .error e
      | .ok parts =>
        match parts.getLast? with
        | none => .error .indexError
        | some lastPart => .ok ⟨st.chunks ++ parts.dropLast, lastPart⟩
    else .ok ⟨st.chunks ++ [pyStrip st.cur], sent⟩
  else .ok ⟨st.chunks, st.cur ++ (if st.cur = [] then [] else [' ']) ++ sent⟩

/-- split_into_chunks(text, chunk_size) of auto_tts.py. -/
def split_into_chunks (text : PyStr) (cs : Int) : Except PyErr (List PyStr) :=
  match (splitSentences text).foldlM (splitStep cs) ⟨[], []⟩ with
  | .error e => .error e
  | .ok st =>
    if pyStrip st.cur ≠ [] then .ok (st.chunks ++ [pyStrip st.cur])
    else if pyStrip text ≠ [] then .ok (st.chunks ++ [pyStrip text])
    else .ok st.chunks

/-- Join a list of chunk texts with single spaces, in order. -/
def joinSpace : List PyStr → PyStr
  | [] => []
  | [c] => c
  | c :: c2 :: rest => c ++ [' '] ++ joinSpace (c2 :: rest)

/-- Fixed-width slices of width k+1, used to reason about the slice list of
an over-long sentence. -/
def chunksSucc (k : Nat) : PyStr → List PyStr
  | [] => []
  | c :: rest => ((c :: rest).take (k + 1)) :: chunksSucc k ((c :: rest).drop (k + 1))
termination_by s => s.length
decreasing_by simp [List.length_drop]; omega

/-- Decimal digit characters. -/
def digitChar : Nat → Char
  | 0 => '0'
  | 1 => '1'
  | 2 => '2'
  | 3 => '3'
  | 4 => '4'
  | 5 => '5'
  | 6 => '6'
  | 7 => '7'
  | 8 => '8'
  | 9 => '9'
  | _ => '?'

/-- Decimal digits of n, most significant first, by fuelled division;
empty for n = 0.  The fuel n + 1 always exceeds the digit count. -/
def natDigitsFuel : Nat → Nat → PyStr
  | 0, _ => []
  | fuel + 1, n => if n = 0 then [] else natDigitsFuel fuel (n / 10) ++ [digitChar (n % 10)]

/-- Decimal representation of a natural number. -/
def natRepr (n : Nat) : PyStr := if n = 0 then ['0'] else natDigitsFuel (n + 1) n

/-- Python format(idx, "04d"): the decimal representation, zero padded on
the left to width 4 (wider numbers are printed in full). -/
def pad4 (n : Nat) : PyStr :=
  if n < 10000 then
    [digitChar (n / 1000), digitChar (n / 100 % 10), digitChar (n / 10 % 10), digitChar (n % 10)]
  else natRepr n

/-- ordered_name = f"part_{idx:04d}.{fmt}" of generate_audio_chunks. -/
def orderedName (idx : Nat) (fmt : PyStr) : PyStr :=
  "part_".data ++ pad4 idx ++ ['.'] ++ fmt

/-- Lexicographic comparison of strings by character code, the order Python
sorted() uses on str keys. -/
def lexLe : PyStr → PyStr → Bool
  | [], _ => true
  | _ :: _, [] => false
  | a :: s1, b :: s2 => if a = b then lexLe s1 s2 else decide (a < b)

/-- Propositional form of `lexLe`. -/
def lexLeP (a b : PyStr) : Prop := lexLe a b = true

instance : DecidableRel lexLeP := fun a b => by
  unfold lexLeP; infer_instance

/-- sorted(...) on filename strings. -/
def pySortNames (l : List PyStr) : List PyStr := List.insertionSort lexLeP l

/-- The three completion signals new_audio_ready tracks, as sampled values:
none models a Python None attribute. -/
structure Signals where
  mainSrc : Option PyStr
  hiddenSrc : Option PyStr
  downloadHref : Option PyStr
deriving DecidableEq

/-- One poll cycle of raw attribute lookups; the outer none models the
lookup raising (element transiently absent). -/
structure RawPoll where
  mainAttr : Option (Option PyStr)
  hiddenAttr : Option (Option PyStr)
  hrefAttr : Option (Option PyStr)
deriving DecidableEq

/-- get_attr_safe of generate_audio_chunks: the attribute value, or None
when the lookup raises. -/
def get_attr_safe : Option (Option PyStr) → Option PyStr
  | none => none
  | some v => v

/-- The signal snapshot obtained by running get_attr_safe on all three
tracked attributes. -/
def samplePoll (r : RawPoll) : Signals :=
  ⟨get_attr_safe r.mainAttr, get_attr_safe r.hiddenAttr, get_attr_safe r.hrefAttr⟩

/-- Python truthiness of an optional string: None and the empty string are
falsy. -/
def truthy : Option PyStr → Bool
  | none => false
  | some s => !s.isEmpty

/-- One comparison of new_audio_ready: cur and cur != prev. -/
def sigChanged (prev cur : Option PyStr) : Bool :=
  truthy cur && decide (cur ≠ prev)

/-- new_audio_ready of generate_audio_chunks: any of the three tracked
signals is truthy and differs from its snapshot. -/
def new_audio_ready (prev cur : Signals) : Bool :=
  sigChanged prev.mainSrc cur.mainSrc || sigChanged prev.hiddenSrc cur.hiddenSrc ||
    sigChanged prev.downloadHref cur.downloadHref

/-- Selenium WebDriverWait(...).until over the finite sequence of per-cycle
observations: the first cycle whose sample satisfies the predicate, with its
index; none models TimeoutException at the ceiling. -/
def webDriverWaitUntil {α : Type} (pred : α → Bool) : List α → Option (Nat × α)
  | [] => none
  | s :: rest =>
    if pred s then some (0, s)
    else (webDriverWaitUntil pred rest).map (fun p => (p.1 + 1, p.2))

/-- The generation-completion wait of generate_audio_chunks: poll cycles of
raw attribute lookups against the pre-trigger snapshot; some i means success
in cycle i, none means timeout. -/
def awaitNewAudio (prev : Signals) (polls : List RawPoll) : Option Nat :=
  (webDriverWaitUntil (fun r => new_audio_ready prev (samplePoll r)) polls).map Prod.fst

/-- Written from the claim: one tracked signal counts in a cycle when its
sampled value exists (a sampling error yields no value), is non-empty, and
differs from the pre-trigger snapshot. -/
def claimHitB (prevV : Option PyStr) (rawCur : Option (Option PyStr)) : Bool :=
  match get_attr_safe rawCur with
  | none => false
  | some s => decide (s ≠ []) && decide (some s ≠ prevV)

/-- Written from the claim: some tracked signal counts in this cycle. -/
def claimReady (prev : Signals) (r : RawPoll) : Bool :=
  claimHitB prev.mainSrc r.mainAttr || claimHitB prev.hiddenSrc r.hiddenAttr ||
    claimHitB prev.downloadHref r.hrefAttr

/-- Written from the claim: the first poll cycle in which some tracked
signal counts, none if no cycle within the ceiling has one. -/
def specFirstChange (prev : Signals) (polls : List RawPoll) : Option Nat :=
  polls.findIdx? (claimReady prev)

/-- A directory entry: file name and modification time. -/
structure DirFile where
  fname : PyStr
  mtime : Nat
deriving DecidableEq

/-- Whether the pattern is a prefix of the string. -/
def strHeads : PyStr → PyStr → Bool
  | [], _ => true
  | _ :: _, [] => false
  | p :: ps, c :: cs2 => p == c && strHeads ps cs2

/-- f.endswith(".crdownload"): a partial-download artifact name. -/
def isCrdownload (f : PyStr) : Bool :=
  strHeads ".crdownload".data.reverse f.reverse

/-- The new complete files of one listing in wait_for_new_download:
candidates = non-.crdownload names, minus the known set. -/
def newFiles (known : List PyStr) (listing : List DirFile) : List DirFile :=
  (listing.filter (fun f => !isCrdownload f.fname)).filter (fun f => decide (f.fname ∉ known))

/-- Python max(..., key=mtime): the first file of maximal modification
time, scanning left to right from a first candidate. -/
def pickNewest (best : DirFile) : List DirFile → DirFile
  | [] => best
  | f :: rest => pickNewest (if best.mtime < f.mtime then f else best) rest

/-- wait_for_new_download of auto_tts.py over the per-cycle directory
listings: return the most recently modified new complete file of the first
cycle that has one; none within the timeout raises TimeoutError (error). -/
def wait_for_new_download (known : List PyStr) : List (List DirFile) → Except Unit DirFile
  | [] => .error ()
  | listing :: rest =>
    match newFiles known listing with
    | [] => wait_for_new_download known rest
    | f :: fs => .ok (pickNewest f fs)

/-- The download stage of generate_audio_chunks for chunk idx: the known
set is the directory listing recorded before the download trigger; a
TimeoutError becomes the chunk-scoped RuntimeError message. -/
def downloadStage (idx : Nat) (pre : List DirFile) (polls : List (List DirFile)) :
    Except PyStr DirFile :=
  match wait_for_new_download (pre.map (fun f => f.fname)) polls with
  | .ok f => .ok f
  | .error _ => .error ("Timed out waiting for download for chunk ".data ++ natRepr idx)

/-- Written from the claim: the new complete files of a listing are those
neither in the before set nor partial-download artifacts. -/
def specNewComplete (before : List PyStr) (listing : List DirFile) : List DirFile :=
  listing.filter (fun f => !isCrdownload f.fname && decide (f.fname ∉ before))

/-- concatenate_audio of auto_tts.py: audio segments are abstracted as
lists of samples, decoding as a map from file name to segment.  Matching
files are sorted by name; an empty match list raises FileNotFoundError
(error); otherwise segments are appended to an empty segment in file
order. -/
def concatenate_audio (listing : List PyStr) (decodeSeg : PyStr → List Nat) :
    Except Unit (List Nat) :=
  if pySortNames (listing.filter (fun f => strHeads "part_".data f)) = [] then .error ()
  else .ok ((pySortNames (listing.filter (fun f => strHeads "part_".data f))).foldl
    (fun acc f => acc ++ decodeSeg f) [])

/-- The generation-completion ceiling of generate_audio_chunks:
WebDriverWait(driver, 300, poll_frequency=1.0) — a constant independent of
the max_wait argument. -/
def generationCeiling (_maxWait : Nat) : Nat := 300

/-- The download-completion ceiling of generate_audio_chunks:
wait_for_new_download(..., timeout=max_wait). -/
def downloadCeiling (maxWait : Nat) : Nat := maxWait

/-- argparse default of --max-wait in main(). -/
def defaultMaxWait : Nat := 120

/-- Result of the cleanup loop at the end of main(): whether the directory
was removed, how many rmtree attempts ran, total backoff sleep seconds,
and whether the final leave-it-behind warning was printed. -/
structure CleanupResult where
  removed : Bool
  attemptsMade : Nat
  sleepSeconds : Nat
  warnedLeft : Bool
deriving DecidableEq

/-- The cleanup loop body over the remaining attempt numbers: try rmtree
(outcome a), break on success, otherwise sleep 2 seconds between attempts
and warn after the final one.  Every exception is caught. -/
def cleanupFrom (outcome : Nat → Except Unit Unit) : List Nat → CleanupResult
  | [] => ⟨false, 0, 0, false⟩
  | a :: rest =>
    match outcome a with
    | .ok _ => ⟨true, 1, 0, false⟩
    | .error _ =>
      if a < 2 then
        let r := cleanupFrom outcome rest
        ⟨r.removed, r.attemptsMade + 1, r.sleepSeconds + 2, r.warnedLeft⟩
      else ⟨false, 1, 0, true⟩

/-- for attempt in range(3) of main(). -/
def cleanup (outcome : Nat → Except Unit Unit) : CleanupResult :=
  cleanupFrom outcome [0, 1, 2]

/-- The tail of main() after the final output file was produced: run the
cleanup loop, then return normally whatever cleanup did. -/
def mainAfterOutput (outcome : Nat → Except Unit Unit) : Except Unit Unit :=
  let _ := cleanup outcome
  .ok ()

/-- Whitespace-insensitive mass of the loop state: the non-whitespace
characters of all completed chunks and the accumulator, in order. -/
def chunkMass (st : SplitSt) : PyStr := removeWS st.chunks.flatten ++ removeWS st.cur

/-- Invariant of the sentence loop of split_into_chunks: chunks appear only
once the accumulator has been seeded, a non-empty accumulator contains a
non-whitespace character, and completed chunks are non-empty. -/
def SplitInv (st : SplitSt) : Prop :=
  (st.cur = [] → st.chunks = []) ∧ (removeWS st.cur = [] → st.cur = []) ∧ ∀ c ∈ st.chunks, c ≠ []

theorem removeWS_append (a b : PyStr) : removeWS (a ++ b) = removeWS a ++ removeWS b := by
  simp [removeWS]

theorem removeWS_cons (c : Char) (l : PyStr) :
    removeWS (c :: l) = if pySpace c then removeWS l else c :: removeWS l := by
  by_cases h : pySpace c <;> simp [removeWS, List.filter_cons, h]

theorem removeWS_reverse (l : PyStr) : removeWS l.reverse = (removeWS l).reverse := by
  simp [removeWS, List.filter_reverse]

theorem removeWS_dropWhileWS (l : PyStr) : removeWS (l.dropWhile pySpace) = removeWS l := by
  induction l with
  | nil => rfl
  | cons c t ih =>
    by_cases h : pySpace c
    · rw [List.dropWhile_cons, if_pos h, ih, removeWS_cons, if_pos h]
    · rw [List.dropWhile_cons, if_neg h]

theorem removeWS_pyStrip (s : PyStr) : removeWS (pyStrip s) = removeWS s := by
  unfold pyStrip
  rw [removeWS_reverse, removeWS_dropWhileWS, removeWS_reverse, List.reverse_reverse,
    removeWS_dropWhileWS]

theorem pyStrip_eq_nil_iff (s : PyStr) : pyStrip s = [] ↔ removeWS s = [] := by
  constructor
  · intro h
    rw [← removeWS_pyStrip, h]
    rfl
  · intro h
    have hall : ∀ c ∈ s, pySpace c = true := by
      intro c hc
      have hmem := List.filter_eq_nil_iff.mp h c hc
      simpa using hmem
    have h2 : s.dropWhile pySpace = [] := List.dropWhile_eq_nil_iff.mpr hall
    simp [pyStrip, h2]

theorem head?_dropWhile_not {p : Char → Bool} (l : PyStr) :
    ∀ c, (l.dropWhile p).head? = some c → p c = false := by
  induction l with
  | nil => intro c h; simp at h
  | cons a t ih =>
    intro c h
    by_cases ha : p a
    · rw [List.dropWhile_cons, if_pos ha] at h
      exact ih c h
    · rw [List.dropWhile_cons, if_neg ha] at h
      simp only [List.head?_cons, Option.some.injEq] at h
      subst h
      exact Bool.not_eq_true _ ▸ (by simpa using ha)

theorem pyStrip_getLast?_not_ws (s : PyStr) (c : Char)
    (h : (pyStrip s).getLast? = some c) : pySpace c = false := by
  unfold pyStrip at h
  rw [List.getLast?_reverse] at h
  exact head?_dropWhile_not _ c h

theorem removeWS_flatten (l : List PyStr) : removeWS l.flatten = (l.map removeWS).flatten := by
  induction l with
  | nil => rfl
  | cons a t ih => simp [removeWS_append, ih]

theorem removeWS_joinSpace (l : List PyStr) :
    removeWS (joinSpace l) = (l.map removeWS).flatten := by
  induction l with
  | nil => rfl
  | cons a t ih =>
    cases t with
    | nil => simp [joinSpace]
    | cons b t2 =>
      rw [joinSpace, removeWS_append, removeWS_append, ih]
      simp [removeWS, pySpace]

theorem splitSentGo_mass (s : PyStr) : ∀ (fin : List PyStr) (acc : PyStr) (b : Bool),
    (b = true → acc = []) →
    removeWS (splitSentGo fin acc b s).flatten = removeWS (fin.flatten ++ acc.reverse ++ s) := by
  induction s with
  | nil =>
    intro fin acc b _
    simp [splitSentGo, removeWS_append]
  | cons c rest ih =>
    intro fin acc b hb
    cases b with
    | true =>
      have hacc : acc = [] := hb rfl
      subst hacc
      by_cases hc : pySpace c
      · have hgo : splitSentGo fin [] true (c :: rest) = splitSentGo fin [] true rest := by
          simp [splitSentGo, hc]
        rw [hgo, ih fin [] true (fun _ => rfl)]
        simp [removeWS_append, removeWS_cons, hc]
      · have hgo : splitSentGo fin [] true (c :: rest) = splitSentGo fin [c] false rest := by
          simp [splitSentGo, hc]
        rw [hgo, ih fin [c] false (fun h => by cases h)]
        simp [removeWS_append, removeWS_cons, hc]
    | false =>
      by_cases h2 : pySpace c && headIsSentEnd acc
      · have hgo : splitSentGo fin acc false (c :: rest) =
            splitSentGo (fin ++ [acc.reverse]) [] true rest := by
          simp only [splitSentGo, Bool.false_eq_true, if_false, h2, if_true]
        have hc : pySpace c = true := by
          have h3 := h2
          simp only [Bool.and_eq_true] at h3
          exact h3.1
        rw [hgo, ih (fin ++ [acc.reverse]) [] true (fun _ => rfl)]
        simp [removeWS_append, removeWS_cons, hc]
      · have hgo : splitSentGo fin acc false (c :: rest) =
            splitSentGo fin (c :: acc) false rest := by
          simp only [splitSentGo, Bool.false_eq_true, if_false, h2]
        rw [hgo, ih fin (c :: acc) false (fun h => by cases h)]
        simp [removeWS_append, removeWS_cons, List.append_assoc]

theorem splitSentences_mass (t : PyStr) :
    removeWS (splitSentences t).flatten = removeWS t := by
  have h := splitSentGo_mass t [] [] false (fun h => by cases h)
  simpa [splitSentences] using h

theorem chunksSucc_flatten_bounded (k : Nat) :
    ∀ (n : Nat) (s : PyStr), s.length ≤ n → (chunksSucc k s).flatten = s := by
  intro n
  induction n with
  | zero =>
    intro s hs
    have hnil : s = [] := List.length_eq_zero.mp (Nat.le_zero.mp hs)
    subst hnil
    rw [chunksSucc]
    rfl
  | succ n ih =>
    intro s hs
    cases s with
    | nil => rw [chunksSucc]; rfl
    | cons c rest =>
      rw [chunksSucc, List.flatten_cons, ih ((c :: rest).drop (k + 1))
        (by simp only [List.length_drop, List.length_cons] at hs ⊢; omega), List.take_append_drop]

theorem chunksSucc_flatten (k : Nat) (s : PyStr) : (chunksSucc k s).flatten = s :=
  chunksSucc_flatten_bounded k s.length s (le_refl _)

theorem chunksSucc_mem_bounded (k : Nat) :
    ∀ (n : Nat) (s : PyStr), s.length ≤ n →
      ∀ p ∈ chunksSucc k s, p ≠ [] ∧ p.length ≤ k + 1 := by
  intro n
  induction n with
  | zero =>
    intro s hs p hp
    have hnil : s = [] := List.length_eq_zero.mp (Nat.le_zero.mp hs)
    subst hnil
    rw [chunksSucc] at hp
    cases hp
  | succ n ih =>
    intro s hs p hp
    cases s with
    | nil => rw [chunksSucc] at hp; cases hp
    | cons c rest =>
      rw [chunksSucc] at hp
      cases hp with
      | head =>
        constructor
        · rw [List.take_succ_cons]
          exact List.cons_ne_nil _ _
        · simp [List.length_take]
      | tail _ hmem =>
        exact ih ((c :: rest).drop (k + 1))
          (by simp only [List.length_drop, List.length_cons] at hs ⊢; omega) p hmem

theorem chunksSucc_mem (k : Nat) (s : PyStr) :
    ∀ p ∈ chunksSucc k s, p ≠ [] ∧ p.length ≤ k + 1 :=
  chunksSucc_mem_bounded k s.length s (le_refl _)

theorem chunksSucc_eq_nil_iff (k : Nat) (s : PyStr) : chunksSucc k s = [] ↔ s = [] := by
  cases s with
  | nil => rw [chunksSucc]; simp
  | cons c rest => rw [chunksSucc]; simp

theorem chunksSucc_dropLast_bounded (k : Nat) :
    ∀ (n : Nat) (s : PyStr), s.length ≤ n →
      ∀ p ∈ (chunksSucc k s).dropLast, p.length = k + 1 := by
  intro n
  induction n with
  | zero =>
    intro s hs p hp
    have hnil : s = [] := List.length_eq_zero.mp (Nat.le_zero.mp hs)
    subst hnil
    rw [chunksSucc] at hp
    cases hp
  | succ n ih =>
    intro s hs p hp
    cases s with
    | nil => rw [chunksSucc] at hp; cases hp
    | cons c rest =>
      rw [chunksSucc] at hp
      rcases hrec : chunksSucc k ((c :: rest).drop (k + 1)) with _ | ⟨d, t2⟩
      · rw [hrec] at hp
        cases hp
      · rw [hrec, List.dropLast_cons₂] at hp
        have hdrop_ne : (c :: rest).drop (k + 1) ≠ [] := by
          intro hcon
          rw [(chunksSucc_eq_nil_iff k _).mpr hcon] at hrec
          cases hrec
        have hlong : k + 1 < (c :: rest).length := by
          by_contra hle
          exact hdrop_ne (List.drop_eq_nil_of_le (by omega))
        cases hp with
        | head =>
          simp only [List.length_take, List.length_cons] at hlong ⊢
          omega
        | tail _ hmem =>
          refine ih ((c :: rest).drop (k + 1))
            (by simp only [List.length_drop, List.length_cons] at hs ⊢; omega) p ?_
          rw [hrec]
          exact hmem

theorem chunksSucc_dropLast_len (k : Nat) (s : PyStr) :
    ∀ p ∈ (chunksSucc k s).dropLast, p.length = k + 1 :=
  chunksSucc_dropLast_bounded k s.length s (le_refl _)

theorem chunksSucc_getLast?_bounded (k : Nat) :
    ∀ (n : Nat) (s : PyStr), s.length ≤ n →
      ∀ t, (chunksSucc k s).getLast? = some t → t ≠ [] ∧ t <:+ s := by
  intro n
  induction n with
  | zero =>
    intro s hs t ht
    have hnil : s = [] := List.length_eq_zero.mp (Nat.le_zero.mp hs)
    subst hnil
    rw [chunksSucc] at ht
    cases ht
  | succ n ih =>
    intro s hs t ht
    cases s with
    | nil => rw [chunksSucc] at ht; cases ht
    | cons c rest =>
      rw [chunksSucc] at ht
      rcases hrec : chunksSucc k ((c :: rest).drop (k + 1)) with _ | ⟨d, t2⟩
      · rw [hrec] at ht
        simp only [List.getLast?_singleton, Option.some.injEq] at ht
        have hdrop : (c :: rest).drop (k + 1) = [] := (chunksSucc_eq_nil_iff k _).mp hrec
        have hshort : (c :: rest).length ≤ k + 1 := by
          by_contra hgt
          have hlen := congrArg List.length hdrop
          simp only [List.length_drop, List.length_nil] at hlen
          omega
        subst ht
        rw [List.take_of_length_le hshort]
        exact ⟨List.cons_ne_nil _ _, List.suffix_refl _⟩
      · rw [hrec, List.getLast?_cons_cons] at ht
        have hih := ih ((c :: rest).drop (k + 1))
          (by simp only [List.length_drop, List.length_cons] at hs ⊢; omega) t (by rw [hrec]; exact ht)
        exact ⟨hih.1, hih.2.trans (List.drop_suffix _ _)⟩

theorem chunksSucc_getLast?_suffix (k : Nat) (s : PyStr) (t : PyStr)
    (h : (chunksSucc k s).getLast? = some t) : t ≠ [] ∧ t <:+ s :=
  chunksSucc_getLast?_bounded k s.length s (le_refl _) t h

theorem partsIdx_eq (k : Nat) (hk : 1 ≤ k) :
    ∀ (n : Nat) (s : PyStr), s.length ≤ n →
      (List.range ((s.length + k - 1) / k)).map (fun i => (s.drop (i * k)).take k) =
        chunksSucc (k - 1) s := by
  intro n
  induction n with
  | zero =>
    intro s hs
    have hnil : s = [] := List.length_eq_zero.mp (Nat.le_zero.mp hs)
    subst hnil
    rw [chunksSucc]
    have h0 : (([] : PyStr).length + k - 1) / k = 0 := by
      simp only [List.length_nil, Nat.zero_add]
      exact Nat.div_eq_of_lt (by omega)
    rw [h0]
    rfl
  | succ n ih =>
    intro s hs
    cases s with
    | nil =>
      rw [chunksSucc]
      have h0 : (([] : PyStr).length + k - 1) / k = 0 := by
        simp only [List.length_nil, Nat.zero_add]
        exact Nat.div_eq_of_lt (by omega)
      rw [h0]
      rfl
    | cons c rest =>
      have hcount : ((c :: rest).length + k - 1) / k = rest.length / k + 1 := by
        simp only [List.length_cons]
        rw [show rest.length + 1 + k - 1 = rest.length + k from by omega,
          Nat.add_div_right _ (by omega)]
      rw [hcount, List.range_succ_eq_map, List.map_cons, List.map_map]
      rw [chunksSucc]
      have hk1 : k - 1 + 1 = k := by omega
      rw [hk1]
      congr 1
      · simp
      · have hlen2 : ((c :: rest).drop k).length ≤ n := by
          simp only [List.length_drop, List.length_cons] at hs ⊢
          omega
        have hih := ih ((c :: rest).drop k) hlen2
        have hm : (((c :: rest).drop k).length + k - 1) / k = rest.length / k := by
          rcases le_or_lt k (rest.length + 1) with hle | hlt
          · simp only [List.length_drop, List.length_cons]
            rw [show rest.length + 1 - k + k - 1 = rest.length from by omega]
          · simp only [List.length_drop, List.length_cons]
            rw [show rest.length + 1 - k = 0 from by omega]
            rw [Nat.div_eq_of_lt (by omega), Nat.div_eq_of_lt (by omega)]
        rw [hm] at hih
        rw [← hih]
        apply List.map_congr_left
        intro i _
        simp only [Function.comp]
        rw [List.drop_drop, Nat.succ_mul, Nat.add_comm]

theorem pyParts_pos (sent : PyStr) (cs : Int) (h1 : 1 ≤ cs) :
    pyParts sent cs = .ok (chunksSucc (cs.toNat - 1) sent) := by
  unfold pyParts
  rw [if_neg (show ¬cs = 0 from by omega), if_neg (show ¬cs < 0 from by omega)]
  exact congrArg Except.ok (partsIdx_eq cs.toNat (by omega) sent.length sent (le_refl _))

theorem splitStep_cases (cs : Int) (st : SplitSt) (a : PyStr) (st2 : SplitSt)
    (h : splitStep cs st a = .ok st2) :
    (pyStrip a = [] ∧ st2 = st) ∨
    (pyStrip a ≠ [] ∧ ¬((st.cur.length + (pyStrip a).length + 1 : Int) > cs) ∧
      st2 = ⟨st.chunks, st.cur ++ (if st.cur = [] then [] else [' ']) ++ pyStrip a⟩) ∨
    (pyStrip a ≠ [] ∧ ((st.cur.length + (pyStrip a).length + 1 : Int) > cs) ∧ st.cur ≠ [] ∧
      st2 = ⟨st.chunks ++ [pyStrip st.cur], pyStrip a⟩) ∨
    (pyStrip a ≠ [] ∧ ((st.cur.length + (pyStrip a).length + 1 : Int) > cs) ∧ st.cur = [] ∧
      1 ≤ cs ∧
      ∃ lastPart,
        (chunksSucc (cs.toNat - 1) (pyStrip a)).getLast? = some lastPart ∧
        st2 = ⟨st.chunks ++ (chunksSucc (cs.toNat - 1) (pyStrip a)).dropLast, lastPart⟩) := by
  simp only [splitStep] at h
  split at h
  · rename_i hsent
    exact Or.inl ⟨hsent, (Except.ok.inj h).symm⟩
  · rename_i hsent
    split at h
    · rename_i hov
      split at h
      · rename_i hcur
        split at h
        · cases h
        · rename_i parts heq
          split at h
          · cases h
          · rename_i lp hlast
            have hpos : 1 ≤ cs := by
              by_contra hle
              by_cases hcs0 : cs = 0
              · rw [hcs0] at heq
                unfold pyParts at heq
                simp at heq
              · have hneg : cs < 0 := by omega
                unfold pyParts at heq
                rw [if_neg hcs0, if_pos hneg] at heq
                have hparts : parts = [] := (Except.ok.inj heq).symm
                subst hparts
                cases hlast
            have hparts : parts = chunksSucc (cs.toNat - 1) (pyStrip a) := by
              rw [pyParts_pos _ _ hpos] at heq
              exact (Except.ok.inj heq).symm
            subst hparts
            refine Or.inr (Or.inr (Or.inr ⟨hsent, hov, hcur, hpos, lp, hlast, ?_⟩))
            exact (Except.ok.inj h).symm
      · rename_i hcur
        refine Or.inr (Or.inr (Or.inl ⟨hsent, hov, hcur, ?_⟩))
        exact (Except.ok.inj h).symm
    · rename_i hov
      refine Or.inr (Or.inl ⟨hsent, hov, ?_⟩)
      exact (Except.ok.inj h).symm

theorem removeWS_pyStrip_ne (a : PyStr) (h : pyStrip a ≠ []) : removeWS (pyStrip a) ≠ [] := by
  rw [removeWS_pyStrip]
  intro hc
  exact h ((pyStrip_eq_nil_iff a).mpr hc)

theorem removeWS_nil : removeWS [] = [] := rfl

theorem splitStep_mass (cs : Int) (st : SplitSt) (a : PyStr) (st2 : SplitSt)
    (h : splitStep cs st a = .ok st2) :
    chunkMass st2 = chunkMass st ++ removeWS a := by
  rcases splitStep_cases cs st a st2 h with
    ⟨hs, rfl⟩ | ⟨hs, hov, rfl⟩ | ⟨hs, hov, hcur, rfl⟩ | ⟨hs, hov, hcur, hpos, lp, hlast, rfl⟩
  · rw [show removeWS a = [] from by rw [← removeWS_pyStrip, hs]; rfl]
    simp
  · simp only [chunkMass, removeWS_append, removeWS_pyStrip]
    by_cases hc : st.cur = [] <;> simp [hc, removeWS, pySpace, List.append_assoc]
  · simp only [chunkMass, List.flatten_append, List.flatten_cons, List.flatten_nil,
      removeWS_append, removeWS_pyStrip, removeWS_nil, List.append_nil, List.append_assoc]
  · have hjoin : ((chunksSucc (cs.toNat - 1) (pyStrip a)).dropLast).flatten ++ lp =
        pyStrip a := by
      have hdl := List.dropLast_append_getLast? lp (by rw [hlast]; rfl)
      have h1 : ((chunksSucc (cs.toNat - 1) (pyStrip a)).dropLast).flatten ++ lp =
          ((chunksSucc (cs.toNat - 1) (pyStrip a)).dropLast ++ [lp]).flatten := by
        rw [List.flatten_append, List.flatten_cons, List.flatten_nil, List.append_nil]
      rw [h1, hdl, chunksSucc_flatten]
    simp only [chunkMass, hcur, List.flatten_append, removeWS_append, removeWS_nil,
      List.append_nil, List.append_assoc]
    rw [← removeWS_append, hjoin, removeWS_pyStrip]

theorem splitStep_inv (cs : Int) (st : SplitSt) (a : PyStr) (st2 : SplitSt)
    (h : splitStep cs st a = .ok st2) (hinv : SplitInv st) : SplitInv st2 := by
  obtain ⟨hi1, hi2, hi3⟩ := hinv
  rcases splitStep_cases cs st a st2 h with
    ⟨hs, rfl⟩ | ⟨hs, hov, rfl⟩ | ⟨hs, hov, hcur, rfl⟩ | ⟨hs, hov, hcur, hpos, lp, hlast, rfl⟩
  · exact ⟨hi1, hi2, hi3⟩
  · refine ⟨?_, ?_, hi3⟩
    · intro hc
      exact absurd hc (by simp [hs])
    · intro hrw
      rw [removeWS_append, removeWS_append] at hrw
      have := (List.append_eq_nil.mp hrw).2
      exact absurd this (removeWS_pyStrip_ne a hs)
  · refine ⟨?_, ?_, ?_⟩
    · intro hc
      exact absurd hc hs
    · intro hrw
      exact absurd hrw (removeWS_pyStrip_ne a hs)
    · intro c hc
      rcases List.mem_append.mp hc with hold | hnew
      · exact hi3 c hold
      · have hcne : pyStrip st.cur ≠ [] := by
          intro hnil
          exact hcur (hi2 ((pyStrip_eq_nil_iff st.cur).mp hnil))
        have hceq : c = pyStrip st.cur := by simpa using hnew
        rw [hceq]
        exact hcne
  · have hlp := chunksSucc_getLast?_suffix (cs.toNat - 1) (pyStrip a) lp hlast
    refine ⟨?_, ?_, ?_⟩
    · intro hc
      exact absurd hc hlp.1
    · intro hrw
      exfalso
      obtain ⟨u, hu⟩ := hlp.2
      have hsane : pyStrip a ≠ [] := hs
      have hglast : lp.getLast? = (pyStrip a).getLast? := by
        rw [← hu]
        exact (List.getLast?_append_of_ne_nil u hlp.1).symm
      have hsome : (pyStrip a).getLast? = some ((pyStrip a).getLast hsane) :=
        List.getLast?_eq_getLast _ hsane
      have hlpsome : lp.getLast? = some ((pyStrip a).getLast hsane) := by
        rw [hglast, hsome]
      have hcmem : (pyStrip a).getLast hsane ∈ lp := by
        have hx := List.getLast?_eq_getLast lp hlp.1
        rw [hx] at hlpsome
        have := Option.some.inj hlpsome
        rw [← this]
        exact List.getLast_mem hlp.1
      have hnws : pySpace ((pyStrip a).getLast hsane) = false :=
        pyStrip_getLast?_not_ws a _ hsome
      have : (pyStrip a).getLast hsane ∈ removeWS lp := by
        refine List.mem_filter.mpr ⟨hcmem, ?_⟩
        simp [hnws]
      rw [hrw] at this
      cases this
    · intro c hc
      rcases List.mem_append.mp hc with hold | hnew
      · exact hi3 c hold
      · have hlen := chunksSucc_dropLast_len (cs.toNat - 1) (pyStrip a) c hnew
        intro hnil
        rw [hnil] at hlen
        cases hlen

theorem splitStep_total (cs : Int) (st : SplitSt) (a : PyStr) (hpos : 1 ≤ cs) :
    ∃ st2, splitStep cs st a = .ok st2 := by
  unfold splitStep
  by_cases hs : pyStrip a = []
  · exact ⟨st, by rw [if_pos hs]⟩
  · rw [if_neg hs]
    by_cases hov : (st.cur.length + (pyStrip a).length + 1 : Int) > cs
    · rw [if_pos hov]
      by_cases hcur : st.cur = []
      · rw [if_pos hcur, pyParts_pos _ _ hpos]
        have hne : chunksSucc (cs.toNat - 1) (pyStrip a) ≠ [] := by
          rw [Ne, chunksSucc_eq_nil_iff]
          exact hs
        obtain ⟨lp, hlp⟩ : ∃ lp, (chunksSucc (cs.toNat - 1) (pyStrip a)).getLast? = some lp := by
          cases hL : (chunksSucc (cs.toNat - 1) (pyStrip a)).getLast? with
          | none => exact absurd (List.getLast?_eq_none_iff.mp hL) hne
          | some lp => exact ⟨lp, rfl⟩
        refine ⟨⟨st.chunks ++ (chunksSucc (cs.toNat - 1) (pyStrip a)).dropLast, lp⟩, ?_⟩
        simp only [hlp]
      · rw [if_neg hcur]
        exact ⟨_, rfl⟩
    · rw [if_neg hov]
      exact ⟨_, rfl⟩

theorem splitStep_err (cs : Int) (ch : List PyStr) (a : PyStr)
    (hneg : cs ≤ 0) (hsa : pyStrip a ≠ []) :
    splitStep cs ⟨ch, []⟩ a = .error (if cs = 0 then PyErr.valueError else PyErr.indexError) := by
  have hlen : 0 < (pyStrip a).length := List.length_pos.mpr hsa
  unfold splitStep
  rw [if_neg hsa, if_pos (by simp; omega), if_pos rfl]
  by_cases h0 : cs = 0
  · rw [show pyParts (pyStrip a) cs = .error .valueError from by
      unfold pyParts; rw [if_pos h0]]
    rw [if_pos h0]
  · rw [show pyParts (pyStrip a) cs = .ok [] from by
      unfold pyParts; rw [if_neg h0, if_pos (by omega)]]
    rw [if_neg h0]
    rfl

theorem splitFold_mass (cs : Int) :
    ∀ (sents : List PyStr) (st st2 : SplitSt),
      sents.foldlM (splitStep cs) st = .ok st2 →
      chunkMass st2 = chunkMass st ++ removeWS sents.flatten := by
  intro sents
  induction sents with
  | nil =>
    intro st st2 h
    rw [List.foldlM_nil] at h
    rw [← Except.ok.inj h]
    simp [removeWS_nil]
  | cons a rest ih =>
    intro st st2 h
    rw [List.foldlM_cons] at h
    cases hstep : splitStep cs st a with
    | error e => rw [hstep] at h; cases h
    | ok mid =>
      rw [hstep] at h
      have hrest : rest.foldlM (splitStep cs) mid = .ok st2 := h
      rw [ih mid st2 hrest, splitStep_mass cs st a mid hstep]
      simp [removeWS_append, List.append_assoc]

theorem splitFold_inv (cs : Int) :
    ∀ (sents : List PyStr) (st st2 : SplitSt),
      sents.foldlM (splitStep cs) st = .ok st2 → SplitInv st → SplitInv st2 := by
  intro sents
  induction sents with
  | nil =>
    intro st st2 h hinv
    rw [List.foldlM_nil] at h
    rw [← Except.ok.inj h]
    exact hinv
  | cons a rest ih =>
    intro st st2 h hinv
    rw [List.foldlM_cons] at h
    cases hstep : splitStep cs st a with
    | error e => rw [hstep] at h; cases h
    | ok mid =>
      rw [hstep] at h
      exact ih mid st2 h (splitStep_inv cs st a mid hstep hinv)

theorem splitFold_total (cs : Int) (hpos : 1 ≤ cs) :
    ∀ (sents : List PyStr) (st : SplitSt),
      ∃ st2, sents.foldlM (splitStep cs) st = .ok st2 := by
  intro sents
  induction sents with
  | nil =>
    intro st
    exact ⟨st, List.foldlM_nil _ _⟩
  | cons a rest ih =>
    intro st
    obtain ⟨mid, hmid⟩ := splitStep_total cs st a hpos
    obtain ⟨st2, hst2⟩ := ih mid
    refine ⟨st2, ?_⟩
    rw [List.foldlM_cons, hmid]
    exact hst2

theorem splitFold_err (cs : Int) (hneg : cs ≤ 0) :
    ∀ (sents : List PyStr), (∃ a ∈ sents, pyStrip a ≠ []) →
      ∀ (ch : List PyStr),
        sents.foldlM (splitStep cs) ⟨ch, []⟩ =
          .error (if cs = 0 then PyErr.valueError else PyErr.indexError) := by
  intro sents
  induction sents with
  | nil =>
    intro hex ch
    obtain ⟨a, ha, _⟩ := hex
    cases ha
  | cons a rest ih =>
    intro hex ch
    rw [List.foldlM_cons]
    by_cases hsa : pyStrip a = []
    · have hstep : splitStep cs ⟨ch, []⟩ a = .ok ⟨ch, []⟩ := by
        unfold splitStep
        rw [if_pos hsa]
      rw [hstep]
      have hex2 : ∃ b ∈ rest, pyStrip b ≠ [] := by
        obtain ⟨b, hb, hbne⟩ := hex
        cases hb with
        | head => exact absurd hsa hbne
        | tail _ hmem => exact ⟨b, hmem, hbne⟩
      exact ih hex2 ch
    · rw [splitStep_err cs ch a hneg hsa]
      rfl

theorem exists_sentence_nonws (text : PyStr) (hne : removeWS text ≠ []) :
    ∃ a ∈ splitSentences text, pyStrip a ≠ [] := by
  by_contra hall
  push_neg at hall
  have hflat : removeWS (splitSentences text).flatten = [] := by
    rw [removeWS_flatten]
    apply List.flatten_eq_nil_iff.mpr
    intro l hl
    obtain ⟨a, ha, rfl⟩ := List.mem_map.mp hl
    exact (pyStrip_eq_nil_iff a).mp (hall a ha)
  rw [splitSentences_mass] at hflat
  exact hne hflat

theorem startInv : SplitInv ⟨[], []⟩ :=
  ⟨fun _ => rfl, fun _ => rfl, fun c hc => absurd hc (List.not_mem_nil c)⟩

theorem chunkMass_start (text : PyStr) (st : SplitSt)
    (hfold : (splitSentences text).foldlM (splitStep cs) ⟨[], []⟩ = .ok st) :
    chunkMass st = removeWS text := by
  have hm := splitFold_mass cs (splitSentences text) ⟨[], []⟩ st hfold
  rw [hm]
  have h0 : chunkMass ⟨[], []⟩ = [] := by simp [chunkMass, removeWS_nil]
  rw [h0, List.nil_append]
  exact splitSentences_mass text

/-- C1: for every input text and chunk bound on which split_into_chunks
returns a chunk list, joining the chunks with single spaces reconstructs
the input text up to whitespace-insensitive equality (equal sequences of
non-whitespace characters). -/
theorem C1_roundtrip (text : PyStr) (cs : Int) (chunks : List PyStr)
    (h : split_into_chunks text cs = .ok chunks) :
    removeWS (joinSpace chunks) = removeWS text := by
  unfold split_into_chunks at h
  cases hfold : (splitSentences text).foldlM (splitStep cs) ⟨[], []⟩ with
  | error e => rw [hfold] at h; cases h
  | ok st =>
    rw [hfold] at h
    replace h : (if pyStrip st.cur ≠ [] then Except.ok (st.chunks ++ [pyStrip st.cur])
        else if pyStrip text ≠ [] then Except.ok (st.chunks ++ [pyStrip text])
        else Except.ok st.chunks) = Except.ok chunks := h
    have hmass : chunkMass st = removeWS text := chunkMass_start text st hfold
    have hinv := splitFold_inv cs _ _ st hfold startInv
    by_cases h1 : pyStrip st.cur = []
    · rw [if_neg (fun hne => hne h1)] at h
      have hcur : st.cur = [] := hinv.2.1 ((pyStrip_eq_nil_iff _).mp h1)
      by_cases h2 : pyStrip text = []
      · rw [if_neg (fun hne => hne h2)] at h
        rw [← Except.ok.inj h]
        rw [removeWS_joinSpace, ← removeWS_flatten, ← hmass]
        simp [chunkMass, hcur, removeWS_nil]
      · exfalso
        have hchunksnil : st.chunks = [] := hinv.1 hcur
        have htext : removeWS text = [] := by
          rw [← hmass]
          simp [chunkMass, hcur, hchunksnil, removeWS_nil]
        exact h2 ((pyStrip_eq_nil_iff text).mpr htext)
    · rw [if_pos h1] at h
      rw [← Except.ok.inj h]
      rw [removeWS_joinSpace, List.map_append, List.flatten_append]
      simp only [List.map_cons, List.map_nil, List.flatten_cons, List.flatten_nil,
        List.append_nil]
      rw [← removeWS_flatten, removeWS_pyStrip]
      exact hmass

/-- C2 (code bug witness): on input "aa. bbbbb" with chunk bound 4 the
splitter returns the chunk "bbbbb" of length 5, which exceeds the bound
and is not a raw slice of width 4: an over-long sentence arriving while
the accumulator is non-empty is flushed whole, never sliced, contradicting
the function docstring "chunks not exceeding chunk_size". -/
theorem C2_overlong_chunk_eval :
    split_into_chunks "aa. bbbbb".data 4 = .ok ["aa.".data, "bbbbb".data] ∧
      (4 : Int) < ("bbbbb".data : PyStr).length := by
  exact ⟨by decide, by decide⟩

/-- C3 (counterexample): the whitespace-only input " " is non-empty yet the
splitter returns no chunks, and on input "a   b" with bound 2 the middle
raw slice is a chunk consisting only of whitespace. -/
theorem C3_counterexample :
    ((" ".data : PyStr).length = 1 ∧ split_into_chunks " ".data 1000 = .ok []) ∧
    (split_into_chunks "a   b".data 2 = .ok ["a ".data, "  ".data, "b".data] ∧
      ("  ".data : PyStr).all pySpace = true) := by
  exact ⟨⟨by decide, by decide⟩, by decide, by decide⟩

/-- C3 (amended): for every input text containing at least one
non-whitespace character, whenever split_into_chunks returns it returns at
least one chunk, and every returned chunk is non-empty (a raw slice may
consist only of whitespace, so non-whitespace-ness of every chunk does not
hold). -/
theorem C3_amended (text : PyStr) (cs : Int) (chunks : List PyStr)
    (h : split_into_chunks text cs = .ok chunks) (hne : removeWS text ≠ []) :
    chunks ≠ [] ∧ ∀ c ∈ chunks, c ≠ [] := by
  unfold split_into_chunks at h
  cases hfold : (splitSentences text).foldlM (splitStep cs) ⟨[], []⟩ with
  | error e => rw [hfold] at h; cases h
  | ok st =>
    rw [hfold] at h
    replace h : (if pyStrip st.cur ≠ [] then Except.ok (st.chunks ++ [pyStrip st.cur])
        else if pyStrip text ≠ [] then Except.ok (st.chunks ++ [pyStrip text])
        else Except.ok st.chunks) = Except.ok chunks := h
    have hmass : chunkMass st = removeWS text := chunkMass_start text st hfold
    have hinv := splitFold_inv cs _ _ st hfold startInv
    by_cases h1 : pyStrip st.cur = []
    · rw [if_neg (fun hne2 => hne2 h1)] at h
      have hcur : st.cur = [] := hinv.2.1 ((pyStrip_eq_nil_iff _).mp h1)
      by_cases h2 : pyStrip text = []
      · exact absurd ((pyStrip_eq_nil_iff text).mp h2) hne
      · rw [if_pos h2] at h
        rw [← Except.ok.inj h]
        refine ⟨by simp, ?_⟩
        intro c hc
        rcases List.mem_append.mp hc with hold | hnew
        · exact hinv.2.2 c hold
        · have : c = pyStrip text := by simpa using hnew
          rw [this]
          exact h2
    · rw [if_pos h1] at h
      rw [← Except.ok.inj h]
      refine ⟨by simp, ?_⟩
      intro c hc
      rcases List.mem_append.mp hc with hold | hnew
      · exact hinv.2.2 c hold
      · have : c = pyStrip st.cur := by simpa using hnew
        rw [this]
        exact h1

/-- C10: for every chunk bound at least 1, split_into_chunks returns
normally on every input; for bound 0 it raises ValueError (zero range
step) and for negative bounds IndexError (indexing the empty slice list),
whenever the text has a sentence with a non-whitespace character. -/
theorem C10_chunk_size_safety (text : PyStr) (cs : Int) :
    (1 ≤ cs → ∃ r, split_into_chunks text cs = .ok r) ∧
    (cs = 0 → removeWS text ≠ [] → split_into_chunks text cs = .error .valueError) ∧
    (cs < 0 → removeWS text ≠ [] → split_into_chunks text cs = .error .indexError) := by
  refine ⟨?_, ?_, ?_⟩
  · intro hpos
    obtain ⟨st, hst⟩ := splitFold_total cs hpos (splitSentences text) ⟨[], []⟩
    unfold split_into_chunks
    rw [hst]
    change ∃ r, (if pyStrip st.cur ≠ [] then Except.ok (st.chunks ++ [pyStrip st.cur])
        else if pyStrip text ≠ [] then Except.ok (st.chunks ++ [pyStrip text])
        else Except.ok st.chunks) = Except.ok r
    by_cases h1 : pyStrip st.cur ≠ []
    · exact ⟨_, by rw [if_pos h1]⟩
    · by_cases h2 : pyStrip text ≠ []
      · exact ⟨_, by rw [if_neg h1, if_pos h2]⟩
      · exact ⟨_, by rw [if_neg h1, if_neg h2]⟩
  · intro h0 hne
    have hex := exists_sentence_nonws text hne
    unfold split_into_chunks
    rw [splitFold_err cs (by omega) _ hex [], if_pos h0]
  · intro hneg hne
    have hex := exists_sentence_nonws text hne
    unfold split_into_chunks
    rw [splitFold_err cs (by omega) _ hex [], if_neg (show ¬cs = 0 from by omega)]

theorem webDriverWaitUntil_eq_findIdx {α : Type} (pred : α → Bool) (l : List α) :
    (webDriverWaitUntil pred l).map Prod.fst = l.findIdx? pred := by
  induction l with
  | nil => rfl
  | cons s rest ih =>
    by_cases hs : pred s
    · simp [webDriverWaitUntil, List.findIdx?_cons, hs]
    · rw [show webDriverWaitUntil pred (s :: rest) =
          (webDriverWaitUntil pred rest).map (fun p => (p.1 + 1, p.2)) from by
        simp [webDriverWaitUntil, hs]]
      rw [List.findIdx?_cons, if_neg (by simp [hs]), List.findIdx?_succ]
      rw [← ih]
      cases webDriverWaitUntil pred rest <;> rfl

theorem sigChanged_eq_claimHit (prevV : Option PyStr) (raw : Option (Option PyStr)) :
    sigChanged prevV (get_attr_safe raw) = claimHitB prevV raw := by
  cases raw with
  | none => rfl
  | some v =>
    cases v with
    | none => rfl
    | some s =>
      cases s with
      | nil => rfl
      | cons c t => rfl

theorem ready_eq_claim (prev : Signals) (r : RawPoll) :
    new_audio_ready prev (samplePoll r) = claimReady prev r := by
  unfold new_audio_ready claimReady samplePoll
  rw [sigChanged_eq_claimHit, sigChanged_eq_claimHit, sigChanged_eq_claimHit]

/-- C4: the generation-completion wait succeeds exactly at the first poll
cycle in which some tracked signal is non-empty and differs from its
pre-trigger snapshot (none = timeout at the ceiling, the poll list length);
a cycle whose three lookups all raise counts as "no signal yet" and does
not abort the loop; and timeout is reported exactly when no cycle within
the ceiling has a counting signal. -/
theorem C4_completion_detector (prev : Signals) (polls : List RawPoll) :
    awaitNewAudio prev polls = specFirstChange prev polls ∧
    new_audio_ready prev (samplePoll ⟨none, none, none⟩) = false ∧
    (specFirstChange prev polls = none ↔ ∀ r ∈ polls, claimReady prev r = false) := by
  refine ⟨?_, rfl, ?_⟩
  · unfold awaitNewAudio specFirstChange
    rw [webDriverWaitUntil_eq_findIdx]
    congr 1
    funext r
    exact ready_eq_claim prev r
  · unfold specFirstChange
    rw [List.findIdx?_eq_none_iff]

theorem pickNewest_mem (l : List DirFile) : ∀ best, pickNewest best l = best ∨ pickNewest best l ∈ l := by
  induction l with
  | nil => intro best; left; rfl
  | cons f rest ih =>
    intro best
    rw [pickNewest]
    rcases ih (if best.mtime < f.mtime then f else best) with h | h
    · rw [h]
      by_cases hc : best.mtime < f.mtime
      · right; rw [if_pos hc]; exact List.mem_cons_self _ _
      · left; rw [if_neg hc]
    · right; exact List.mem_cons_of_mem _ h

theorem pickNewest_ge (l : List DirFile) : ∀ best,
    best.mtime ≤ (pickNewest best l).mtime ∧ ∀ g ∈ l, g.mtime ≤ (pickNewest best l).mtime := by
  induction l with
  | nil => intro best; exact ⟨le_refl _, fun g hg => absurd hg (List.not_mem_nil g)⟩
  | cons f rest ih =>
    intro best
    rw [pickNewest]
    obtain ⟨h1, h2⟩ := ih (if best.mtime < f.mtime then f else best)
    constructor
    · refine le_trans ?_ h1
      by_cases hc : best.mtime < f.mtime
      · rw [if_pos hc]; omega
      · rw [if_neg hc]
    · intro g hg
      cases hg with
      | head =>
        refine le_trans ?_ h1
        by_cases hc : best.mtime < f.mtime
        · rw [if_pos hc]
        · rw [if_neg hc]; omega
      | tail _ hmem => exact h2 g hmem

theorem newFiles_eq_spec (known : List PyStr) (listing : List DirFile) :
    newFiles known listing = specNewComplete known listing := by
  unfold newFiles specNewComplete
  rw [List.filter_filter]
  apply List.filter_congr
  intro f _
  rw [Bool.and_comm]

theorem wfnd_error_iff (known : List PyStr) :
    ∀ (polls : List (List DirFile)),
      wait_for_new_download known polls = .error () ↔
        ∀ st ∈ polls, specNewComplete known st = [] := by
  intro polls
  induction polls with
  | nil => simp [wait_for_new_download]
  | cons listing rest ih =>
    rw [wait_for_new_download]
    cases hnf : newFiles known listing with
    | nil =>
      show wait_for_new_download known rest = .error () ↔ _
      rw [ih]
      constructor
      · intro hall st hst
        cases hst with
        | head => rw [← newFiles_eq_spec]; exact hnf
        | tail _ hmem => exact hall st hmem
      · intro hall st hst
        exact hall st (List.mem_cons_of_mem _ hst)
    | cons g gs =>
      show Except.ok (pickNewest g gs) = Except.error () ↔ _
      constructor
      · intro hcon; cases hcon
      · intro hall
        exfalso
        have := hall listing (List.mem_cons_self _ _)
        rw [← newFiles_eq_spec, hnf] at this
        cases this

theorem wfnd_ok_spec (known : List PyStr) :
    ∀ (polls : List (List DirFile)) (f : DirFile),
      wait_for_new_download known polls = .ok f →
      ∃ i, ∃ hi : i < polls.length,
        (∀ j (hj : j < polls.length), j < i → specNewComplete known (polls.get ⟨j, hj⟩) = []) ∧
        f ∈ specNewComplete known (polls.get ⟨i, hi⟩) ∧
        ∀ g ∈ specNewComplete known (polls.get ⟨i, hi⟩), g.mtime ≤ f.mtime := by
  intro polls
  induction polls with
  | nil => intro f h; cases h
  | cons listing rest ih =>
    intro f h
    rw [wait_for_new_download] at h
    cases hnf : newFiles known listing with
    | nil =>
      rw [hnf] at h
      replace h : wait_for_new_download known rest = .ok f := h
      obtain ⟨i, hi, hbefore, hmem, hmax⟩ := ih f h
      refine ⟨i + 1, by simpa using hi, ?_, ?_, ?_⟩
      · intro j hj hlt
        cases j with
        | zero =>
          show specNewComplete known listing = []
          rw [← newFiles_eq_spec]
          exact hnf
        | succ j2 =>
          have hj2 : j2 < rest.length := by simpa using hj
          exact hbefore j2 hj2 (by omega)
      · exact hmem
      · exact hmax
    | cons g gs =>
      rw [hnf] at h
      replace h : Except.ok (pickNewest g gs) = Except.ok f := h
      have hf : f = pickNewest g gs := (Except.ok.inj h).symm
      refine ⟨0, by simp, ?_, ?_, ?_⟩
      · intro j hj hlt; omega
      · show f ∈ specNewComplete known listing
        rw [← newFiles_eq_spec, hnf, hf]
        rcases pickNewest_mem gs g with he | hm
        · rw [he]; exact List.mem_cons_self _ _
        · exact List.mem_cons_of_mem _ hm
      · intro g2 hg2
        rw [hf]
        have hspec : g2 ∈ newFiles known listing := by
          rw [newFiles_eq_spec]
          exact hg2
        rw [hnf] at hspec
        cases hspec with
        | head => exact (pickNewest_ge gs g).1
        | tail _ hmem => exact (pickNewest_ge gs g).2 g2 hmem

/-- C5: in the download stage of chunk idx, the before set is the directory
listing recorded ahead of the download trigger; the poll loop returns, at
the first cycle in which a file outside the before set and not a
.crdownload artifact is present, such a file of maximal modification time,
and it reports the chunk-scoped download-timed-out error exactly when no
cycle within the timeout has such a file. -/
theorem C5_download_stage (idx : Nat) (pre : List DirFile) (polls : List (List DirFile)) :
    (∀ f, downloadStage idx pre polls = .ok f →
      ∃ i, ∃ hi : i < polls.length,
        (∀ j (hj : j < polls.length), j < i →
          specNewComplete (pre.map (fun g => g.fname)) (polls.get ⟨j, hj⟩) = []) ∧
        f ∈ specNewComplete (pre.map (fun g => g.fname)) (polls.get ⟨i, hi⟩) ∧
        ∀ g ∈ specNewComplete (pre.map (fun g => g.fname)) (polls.get ⟨i, hi⟩),
          g.mtime ≤ f.mtime) ∧
    (downloadStage idx pre polls =
        .error ("Timed out waiting for download for chunk ".data ++ natRepr idx) ↔
      ∀ st ∈ polls, specNewComplete (pre.map (fun g => g.fname)) st = []) := by
  constructor
  · intro f h
    unfold downloadStage at h
    cases hw : wait_for_new_download (pre.map (fun g => g.fname)) polls with
    | error e => rw [hw] at h; cases h
    | ok f2 =>
      rw [hw] at h
      replace h : Except.ok f2 = Except.ok f := h
      rw [← Except.ok.inj h]
      exact wfnd_ok_spec (pre.map (fun g => g.fname)) polls f2 hw
  · unfold downloadStage
    cases hw : wait_for_new_download (pre.map (fun g => g.fname)) polls with
    | error e =>
      have hunit : wait_for_new_download (pre.map (fun g => g.fname)) polls = .error () := by
        rw [hw]
      constructor
      · intro _
        exact (wfnd_error_iff _ polls).mp hunit
      · intro _
        rfl
    | ok f2 =>
      constructor
      · intro hcon
        cases hcon
      · intro hall
        exfalso
        have hx := (wfnd_error_iff _ polls).mpr hall
        rw [hw] at hx
        cases hx

theorem lexLe_refl (a : PyStr) : lexLe a a = true := by
  induction a with
  | nil => rfl
  | cons c t ih => rw [lexLe, if_pos rfl]; exact ih

theorem lexLe_total : ∀ a b : PyStr, lexLe a b = true ∨ lexLe b a = true := by
  intro a
  induction a with
  | nil => intro b; left; rfl
  | cons x xs ih =>
    intro b
    cases b with
    | nil => right; rfl
    | cons y ys =>
      by_cases hxy : x = y
      · subst hxy
        rcases ih ys with h | h
        · left; rw [lexLe, if_pos rfl]; exact h
        · right; rw [lexLe, if_pos rfl]; exact h
      · rcases lt_trichotomy x y with hlt | heq | hgt
        · left; rw [lexLe, if_neg hxy]; exact decide_eq_true hlt
        · exact absurd heq hxy
        · right; rw [lexLe, if_neg (Ne.symm hxy)]; exact decide_eq_true hgt

theorem lexLe_trans : ∀ a b c : PyStr, lexLe a b = true → lexLe b c = true → lexLe a c = true := by
  intro a
  induction a with
  | nil => intro b c _ _; rfl
  | cons x xs ih =>
    intro b c hab hbc
    cases b with
    | nil => rw [lexLe] at hab; cases hab
    | cons y ys =>
      cases c with
      | nil => rw [lexLe] at hbc; cases hbc
      | cons z zs =>
        rw [lexLe] at hab hbc ⊢
        by_cases hxy : x = y
        · subst hxy
          rw [if_pos rfl] at hab
          by_cases hyz : x = z
          · subst hyz
            rw [if_pos rfl] at hbc ⊢
            exact ih ys zs hab hbc
          · rw [if_neg hyz] at hbc ⊢
            exact hbc
        · rw [if_neg hxy] at hab
          have hlt : x < y := of_decide_eq_true hab
          by_cases hyz : y = z
          · subst hyz
            rw [if_neg hxy]
            exact decide_eq_true hlt
          · rw [if_neg hyz] at hbc
            have hlt2 : y < z := of_decide_eq_true hbc
            have hxz : x < z := lt_trans hlt hlt2
            rw [if_neg (ne_of_lt hxz)]
            exact decide_eq_true hxz

theorem lexLe_antisymm : ∀ a b : PyStr, lexLe a b = true → lexLe b a = true → a = b := by
  intro a
  induction a with
  | nil =>
    intro b hab hba
    cases b with
    | nil => rfl
    | cons y ys => rw [lexLe] at hba; cases hba
  | cons x xs ih =>
    intro b hab hba
    cases b with
    | nil => rw [lexLe] at hab; cases hab
    | cons y ys =>
      rw [lexLe] at hab hba
      by_cases hxy : x = y
      · subst hxy
        rw [if_pos rfl] at hab hba
        rw [ih ys hab hba]
      · rw [if_neg hxy] at hab
        rw [if_neg (Ne.symm hxy)] at hba
        have h1 : x < y := of_decide_eq_true hab
        have h2 : y < x := of_decide_eq_true hba
        exact absurd h2 (lt_asymm h1)

theorem lexLe_append_left (p : PyStr) : ∀ a b, lexLe (p ++ a) (p ++ b) = lexLe a b := by
  induction p with
  | nil => intro a b; rfl
  | cons c t ih =>
    intro a b
    rw [List.cons_append, List.cons_append, lexLe, if_pos rfl]
    exact ih a b

theorem lexLe_append_same (s : PyStr) : ∀ (a b : PyStr), a.length = b.length →
    lexLe (a ++ s) (b ++ s) = lexLe a b := by
  intro a
  induction a with
  | nil =>
    intro b hlen
    have hb : b = [] := List.length_eq_zero.mp hlen.symm
    subst hb
    show lexLe ([] ++ s) ([] ++ s) = lexLe [] []
    rw [List.nil_append, lexLe_refl]
    rfl
  | cons x xs ih =>
    intro b hlen
    cases b with
    | nil => exact absurd hlen (by simp)
    | cons y ys =>
      rw [List.cons_append, List.cons_append, lexLe, lexLe]
      by_cases hxy : x = y
      · rw [if_pos hxy, if_pos hxy]
        exact ih ys (by simpa using hlen)
      · rw [if_neg hxy, if_neg hxy]

theorem digitChar_lt_iff_fin : ∀ a b : Fin 10, (digitChar a < digitChar b ↔ (a : Nat) < b) := by
  decide

theorem digitChar_eq_iff_fin : ∀ a b : Fin 10, (digitChar a = digitChar b ↔ (a : Nat) = b) := by
  decide

theorem digitChar_lt_iff (a b : Nat) (ha : a < 10) (hb : b < 10) :
    digitChar a < digitChar b ↔ a < b := digitChar_lt_iff_fin ⟨a, ha⟩ ⟨b, hb⟩

theorem digitChar_eq_iff (a b : Nat) (ha : a < 10) (hb : b < 10) :
    digitChar a = digitChar b ↔ a = b := digitChar_eq_iff_fin ⟨a, ha⟩ ⟨b, hb⟩

theorem pad4_lt10000 (n : Nat) (h : n < 10000) :
    pad4 n = [digitChar (n / 1000), digitChar (n / 100 % 10), digitChar (n / 10 % 10),
      digitChar (n % 10)] := by
  unfold pad4
  rw [if_pos h]

theorem pad4_length (n : Nat) (h : n < 10000) : (pad4 n).length = 4 := by
  rw [pad4_lt10000 n h]
  rfl

theorem lexLe_cons_iff (x y : Char) (xs ys : PyStr) :
    lexLe (x :: xs) (y :: ys) = true ↔ (x = y ∧ lexLe xs ys = true) ∨ (¬x = y ∧ x < y) := by
  by_cases hxy : x = y
  · rw [lexLe, if_pos hxy]
    simp [hxy]
  · rw [lexLe, if_neg hxy]
    simp [hxy]

theorem lexLe_pad4_iff (i j : Nat) (hi : i < 10000) (hj : j < 10000) :
    lexLe (pad4 i) (pad4 j) = true ↔ i ≤ j := by
  rw [pad4_lt10000 i hi, pad4_lt10000 j hj]
  have hb0 : i / 1000 < 10 := by omega
  have hb1 : i / 100 % 10 < 10 := by omega
  have hb2 : i / 10 % 10 < 10 := by omega
  have hb3 : i % 10 < 10 := by omega
  have hc0 : j / 1000 < 10 := by omega
  have hc1 : j / 100 % 10 < 10 := by omega
  have hc2 : j / 10 % 10 < 10 := by omega
  have hc3 : j % 10 < 10 := by omega
  simp only [lexLe_cons_iff, show lexLe ([] : PyStr) ([] : PyStr) = true from rfl, and_true]
  rw [digitChar_eq_iff _ _ hb0 hc0, digitChar_lt_iff _ _ hb0 hc0,
    digitChar_eq_iff _ _ hb1 hc1, digitChar_lt_iff _ _ hb1 hc1,
    digitChar_eq_iff _ _ hb2 hc2, digitChar_lt_iff _ _ hb2 hc2,
    digitChar_eq_iff _ _ hb3 hc3, digitChar_lt_iff _ _ hb3 hc3]
  omega

theorem lexLeP_orderedName_iff (i j : Nat) (fmt : PyStr) (hi : i < 10000) (hj : j < 10000) :
    lexLeP (orderedName i fmt) (orderedName j fmt) ↔ i ≤ j := by
  unfold lexLeP orderedName
  simp only [List.append_assoc]
  rw [lexLe_append_left]
  rw [lexLe_append_same (['.'] ++ fmt) (pad4 i) (pad4 j)
    (by rw [pad4_length i hi, pad4_length j hj])]
  exact lexLe_pad4_iff i j hi hj

theorem pySortNames_sorted (l : List PyStr) : (pySortNames l).Sorted lexLeP := by
  haveI : IsTotal PyStr lexLeP := ⟨fun a b => lexLe_total a b⟩
  haveI : IsTrans PyStr lexLeP := ⟨fun a b c => lexLe_trans a b c⟩
  exact List.sorted_insertionSort lexLeP l

theorem pySortNames_perm (l : List PyStr) : (pySortNames l).Perm l :=
  List.perm_insertionSort lexLeP l

theorem orderedNames_sorted (n : Nat) (hn : n ≤ 9999) (fmt : PyStr) :
    ((List.range' 1 n).map (fun i => orderedName i fmt)).Sorted lexLeP := by
  rw [List.Sorted, List.pairwise_map]
  have hp : List.Pairwise (· < ·) (List.range' 1 n) := List.pairwise_lt_range' 1 n
  refine hp.imp_of_mem ?_
  intro i j hi hj hij
  have hib := List.mem_range'_1.mp hi
  have hjb := List.mem_range'_1.mp hj
  exact (lexLeP_orderedName_iff i j fmt (by omega) (by omega)).mpr (le_of_lt hij)

/-- C6 (counterexample): with 10000 chunks, lexicographic sorting of the
renamed artifact filenames does not reproduce numeric chunk index order:
part_10000.mp3 sorts before part_9999.mp3 because the zero padding is only
four digits wide. -/
theorem C6_counterexample :
    pySortNames ((List.range' 1 10000).map (fun i => orderedName i "mp3".data)) ≠
      (List.range' 1 10000).map (fun i => orderedName i "mp3".data) := by
  intro heq
  have hsorted := pySortNames_sorted
    ((List.range' 1 10000).map (fun i => orderedName i "mp3".data))
  rw [heq] at hsorted
  have hlen : ((List.range' 1 10000).map (fun i => orderedName i "mp3".data)).length = 10000 := by
    rw [List.length_map, List.length_range']
  have hrel := hsorted.rel_get_of_lt
    (a := ⟨9998, by rw [hlen]; omega⟩) (b := ⟨9999, by rw [hlen]; omega⟩)
    (by simp [Fin.lt_def])
  have h1 : ((List.range' 1 10000).map (fun i => orderedName i "mp3".data)).get
      ⟨9998, by rw [hlen]; omega⟩ = orderedName 9999 "mp3".data := by
    simp [List.get_eq_getElem, List.getElem_map, List.getElem_range'_1]
  have h2 : ((List.range' 1 10000).map (fun i => orderedName i "mp3".data)).get
      ⟨9999, by rw [hlen]; omega⟩ = orderedName 10000 "mp3".data := by
    simp [List.get_eq_getElem, List.getElem_map, List.getElem_range'_1]
  rw [h1, h2] at hrel
  exact absurd hrel (by decide)

/-- C6 (amended): for every number of chunks at most 9999 and any
permutation of arrival order of the renamed artifacts
part_<zero-padded-index>.<ext>, sorting the filenames lexicographically
reproduces the original numeric chunk index order. -/
theorem C6_amended (n : Nat) (hn : n ≤ 9999) (fmt : PyStr) (l : List PyStr)
    (hperm : l.Perm ((List.range' 1 n).map (fun i => orderedName i fmt))) :
    pySortNames l = (List.range' 1 n).map (fun i => orderedName i fmt) := by
  haveI : IsAntisymm PyStr lexLeP := ⟨fun a b => lexLe_antisymm a b⟩
  exact List.eq_of_perm_of_sorted ((pySortNames_perm l).trans hperm)
    (pySortNames_sorted l) (orderedNames_sorted n hn fmt)

theorem foldl_append_flatten (decodeSeg : PyStr → List Nat) (l : List PyStr) :
    ∀ init : List Nat, l.foldl (fun acc f => acc ++ decodeSeg f) init =
      init ++ (l.map decodeSeg).flatten := by
  induction l with
  | nil => intro init; simp
  | cons f rest ih =>
    intro init
    rw [List.foldl_cons, ih]
    simp [List.append_assoc]

theorem pySortNames_eq_nil_iff (l : List PyStr) : pySortNames l = [] ↔ l = [] := by
  constructor
  · intro h
    have hp := pySortNames_perm l
    rw [h] at hp
    exact (hp.symm).eq_nil
  · intro h
    rw [h]
    rfl

/-- C7: the assembler raises its no-artifacts-found error exactly when the
listing contains no file matching the glob pattern part_*; otherwise it
succeeds and the output is the decoded segments of the matching files
appended in exactly lexicographically sorted name order. -/
theorem C7_assembler (listing : List PyStr) (decodeSeg : PyStr → List Nat) :
    (concatenate_audio listing decodeSeg = .error () ↔
      listing.filter (fun f => strHeads "part_".data f) = []) ∧
    (∀ r, concatenate_audio listing decodeSeg = .ok r →
      (pySortNames (listing.filter (fun f => strHeads "part_".data f))).Perm
        (listing.filter (fun f => strHeads "part_".data f)) ∧
      (pySortNames (listing.filter (fun f => strHeads "part_".data f))).Sorted lexLeP ∧
      r = ((pySortNames (listing.filter (fun f => strHeads "part_".data f))).map
        decodeSeg).flatten) := by
  constructor
  · unfold concatenate_audio
    by_cases h : pySortNames (listing.filter (fun f => strHeads "part_".data f)) = []
    · rw [if_pos h]
      simp only [true_iff]
      exact (pySortNames_eq_nil_iff _).mp h
    · rw [if_neg h]
      constructor
      · intro hcon
        cases hcon
      · intro hnil
        exact absurd ((pySortNames_eq_nil_iff _).mpr hnil) h
  · intro r hr
    unfold concatenate_audio at hr
    by_cases h : pySortNames (listing.filter (fun f => strHeads "part_".data f)) = []
    · rw [if_pos h] at hr
      cases hr
    · rw [if_neg h] at hr
      refine ⟨pySortNames_perm _, pySortNames_sorted _, ?_⟩
      rw [← Except.ok.inj hr, foldl_append_flatten]
      rfl

/-- C8 (counterexample): the generation-completion ceiling is the constant
300 seconds for every value of the only timeout option, so the two
ceilings are not configurable independently: no choice of configuration
changes the generation ceiling. -/
theorem C8_counterexample :
    (¬∃ mw mw2 : Nat, generationCeiling mw ≠ generationCeiling mw2) ∧
    downloadCeiling 7 = 7 ∧ downloadCeiling 120 = 120 := by
  refine ⟨?_, rfl, rfl⟩
  rintro ⟨mw, mw2, h⟩
  exact h rfl

/-- C8 (amended): per chunk there are two independent timeout ceilings:
generation completion is fixed at 300 seconds (not configurable), and
file-download completion equals the --max-wait option, whose default is
120 seconds and which governs only the download ceiling; by default the
download ceiling is the shorter of the two. -/
theorem C8_amended (maxWait : Nat) :
    generationCeiling maxWait = 300 ∧ downloadCeiling maxWait = maxWait ∧
    defaultMaxWait = 120 ∧ downloadCeiling defaultMaxWait < generationCeiling defaultMaxWait := by
  exact ⟨rfl, rfl, rfl, by decide⟩

/-- C9: the cleanup loop makes between 1 and 3 rmtree attempts, sleeps 2
seconds between consecutive attempts (so total backoff is twice the number
of attempts minus one), warns and leaves the directory behind exactly in
the case it never removed it, and the tail of main() returns success
regardless of the cleanup outcome; the loop itself is a total function
(every rmtree exception is caught). -/
theorem C9_cleanup (outcome : Nat → Except Unit Unit) :
    1 ≤ (cleanup outcome).attemptsMade ∧ (cleanup outcome).attemptsMade ≤ 3 ∧
    (cleanup outcome).sleepSeconds = 2 * ((cleanup outcome).attemptsMade - 1) ∧
    ((cleanup outcome).removed = false → (cleanup outcome).warnedLeft = true) ∧
    mainAfterOutput outcome = .ok () := by
  cases h0 : outcome 0 <;> cases h1 : outcome 1 <;> cases h2 : outcome 2 <;>
    simp [cleanup, cleanupFrom, h0, h1, h2, mainAfterOutput]

theorem C1_roundtrip_witness :
    removeWS (joinSpace ["ab.".data, "cd".data]) = removeWS "ab. cd".data :=
  C1_roundtrip ("ab. cd".data) 4 ["ab.".data, "cd".data] (by decide)

theorem C3_amended_witness :
    (["a".data] : List PyStr) ≠ [] ∧ ∀ c ∈ (["a".data] : List PyStr), c ≠ [] :=
  C3_amended ("a".data) 5 ["a".data] (by decide) (by decide)

theorem C4_witness :
    awaitNewAudio ⟨some "x".data, none, none⟩
        [⟨some none, none, none⟩, ⟨some (some "y".data), none, none⟩] =
      specFirstChange ⟨some "x".data, none, none⟩
        [⟨some none, none, none⟩, ⟨some (some "y".data), none, none⟩] ∧
    new_audio_ready ⟨some "x".data, none, none⟩ (samplePoll ⟨none, none, none⟩) = false ∧
    (specFirstChange ⟨some "x".data, none, none⟩
        [⟨some none, none, none⟩, ⟨some (some "y".data), none, none⟩] = none ↔
      ∀ r ∈ [(⟨some none, none, none⟩ : RawPoll), ⟨some (some "y".data), none, none⟩],
        claimReady ⟨some "x".data, none, none⟩ r = false) :=
  C4_completion_detector ⟨some "x".data, none, none⟩
    [⟨some none, none, none⟩, ⟨some (some "y".data), none, none⟩]

theorem C5_witness :
    (∀ f, downloadStage 1 [] [[⟨"a".data, 5⟩]] = .ok f →
      ∃ i, ∃ hi : i < ([[(⟨"a".data, 5⟩ : DirFile)]] : List (List DirFile)).length,
        (∀ j (hj : j < ([[(⟨"a".data, 5⟩ : DirFile)]] : List (List DirFile)).length), j < i →
          specNewComplete (([] : List DirFile).map (fun g => g.fname))
            (([[(⟨"a".data, 5⟩ : DirFile)]] : List (List DirFile)).get ⟨j, hj⟩) = []) ∧
        f ∈ specNewComplete (([] : List DirFile).map (fun g => g.fname))
          (([[(⟨"a".data, 5⟩ : DirFile)]] : List (List DirFile)).get ⟨i, hi⟩) ∧
        ∀ g ∈ specNewComplete (([] : List DirFile).map (fun g => g.fname))
          (([[(⟨"a".data, 5⟩ : DirFile)]] : List (List DirFile)).get ⟨i, hi⟩),
          g.mtime ≤ f.mtime) ∧
    (downloadStage 1 [] [[⟨"a".data, 5⟩]] =
        .error ("Timed out waiting for download for chunk ".data ++ natRepr 1) ↔
      ∀ st ∈ ([[(⟨"a".data, 5⟩ : DirFile)]] : List (List DirFile)),
        specNewComplete (([] : List DirFile).map (fun g => g.fname)) st = []) :=
  C5_download_stage 1 [] [[⟨"a".data, 5⟩]]

theorem C6_witness :
    pySortNames [orderedName 2 "mp3".data, orderedName 1 "mp3".data] =
      (List.range' 1 2).map (fun i => orderedName i "mp3".data) :=
  C6_amended 2 (by decide) ("mp3".data) [orderedName 2 "mp3".data, orderedName 1 "mp3".data]
    (by decide)

theorem C7_witness :
    (concatenate_audio ["part_0001.mp3".data, "x.txt".data] (fun _ => [1]) = .error () ↔
      (["part_0001.mp3".data, "x.txt".data] : List PyStr).filter
        (fun f => strHeads "part_".data f) = []) ∧
    (∀ r, concatenate_audio ["part_0001.mp3".data, "x.txt".data] (fun _ => [1]) = .ok r →
      (pySortNames ((["part_0001.mp3".data, "x.txt".data] : List PyStr).filter
        (fun f => strHeads "part_".data f))).Perm
        ((["part_0001.mp3".data, "x.txt".data] : List PyStr).filter
          (fun f => strHeads "part_".data f)) ∧
      (pySortNames ((["part_0001.mp3".data, "x.txt".data] : List PyStr).filter
        (fun f => strHeads "part_".data f))).Sorted lexLeP ∧
      r = ((pySortNames ((["part_0001.mp3".data, "x.txt".data] : List PyStr).filter
        (fun f => strHeads "part_".data f))).map (fun _ => [1])).flatten) :=
  C7_assembler ["part_0001.mp3".data, "x.txt".data] (fun _ => [1])

theorem C8_witness :
    generationCeiling 7 = 300 ∧ downloadCeiling 7 = 7 ∧ defaultMaxWait = 120 ∧
    downloadCeiling defaultMaxWait < generationCeiling defaultMaxWait :=
  C8_amended 7

theorem C9_witness :
    1 ≤ (cleanup (fun _ => .error ())).attemptsMade ∧
    (cleanup (fun _ => .error ())).attemptsMade ≤ 3 ∧
    (cleanup (fun _ => .error ())).sleepSeconds =
      2 * ((cleanup (fun _ => .error ())).attemptsMade - 1) ∧
    ((cleanup (fun _ => .error ())).removed = false →
      (cleanup (fun _ => .error ())).warnedLeft = true) ∧
    mainAfterOutput (fun _ => .error ()) = .ok () :=
  C9_cleanup (fun _ => .error ())

theorem C10_witness :
    (∃ r, split_into_chunks "a".data 1 = .ok r) ∧
    split_into_chunks "a".data 0 = .error .valueError ∧
    split_into_chunks "a".data (-1) = .error .indexError :=
  ⟨(C10_chunk_size_safety ("a".data) 1).1 (by decide),
    (C10_chunk_size_safety ("a".data) 0).2.1 rfl (by decide),
    (C10_chunk_size_safety ("a".data) (-1)).2.2 (by decide) (by decide)⟩
